import Mathlib

set_option maxHeartbeats 1000000

/-!
Verification of the FeatherGate Python example client
(`src/examples/python/client.py`).

The embedding models:

* JSON values (`Json`) with integer numerals, a serializer (`serialize`)
  and a parser (`json_loads`) standing for Python's `json.dumps` /
  `json.loads` restricted to the integer fragment (no floats, no
  `\uXXXX` escapes); the parser is executable and fuel-indexed so that
  every definition reduces in the kernel.
* the SSE stream decoder `_handle_stream` as `handle_stream`, a total
  function from the list of received lines to the list of decoded
  chunks (the Python generator, run to completion on a closed stream);
* the HTTP layer as a `Session` record of pure functions
  `post`/`get : request → HttpResponse`, so that transports can be
  instantiated with mocks;
* the set of client calls: `chat` (the `FeatherGateClient.chat`
  method) and `list_models` / `health_check` (the GET-and-parse calls
  performed by `example_list_models` / `example_health_check`).
-/

namespace FeatherGate

/-- JSON values, with numbers restricted to integers.  Objects are
insertion-ordered association lists, mirroring Python dict order. -/
inductive Json where
  | null : Json
  | bool (b : Bool) : Json
  | num (n : Int) : Json
  | str (s : String) : Json
  | arr (elems : List Json) : Json
  | obj (members : List (String × Json)) : Json

/-- The JSON whitespace characters (Python `json` skips ` \t\n\r`). -/
def wsChar (c : Char) : Bool :=
  c = ' ' || c = '\t' || c = '\n' || c = '\r'

/-- Drop leading JSON whitespace. -/
def skipWs : List Char → List Char
  | [] => []
  | c :: cs => if wsChar c then skipWs cs else c :: cs

/-- The decimal digit character for a value below ten. -/
def decDigit : Nat → Char
  | 0 => '0'
  | 1 => '1'
  | 2 => '2'
  | 3 => '3'
  | 4 => '4'
  | 5 => '5'
  | 6 => '6'
  | 7 => '7'
  | 8 => '8'
  | _ => '9'

/-- Numeric value of a decimal digit character. -/
def digitVal (c : Char) : Nat := c.toNat - 48

/-- Fuel-indexed accumulator loop producing the decimal digits of `n`
in front of `acc`.  Fuel `n + 1` always suffices. -/
def natDigitsAux : Nat → Nat → List Char → List Char
  | 0, _, acc => acc
  | fuel + 1, n, acc =>
    if n < 10 then decDigit n :: acc
    else natDigitsAux fuel (n / 10) (decDigit (n % 10) :: acc)

/-- Decimal digit characters of `n`, most significant first. -/
def natDigits (n : Nat) : List Char := natDigitsAux (n + 1) n []

/-- One step of reading a decimal numeral left to right. -/
def digitStep (a : Nat) (c : Char) : Nat := a * 10 + digitVal c

/-- Value of a decimal numeral given as digit characters. -/
def digitsToNat (ds : List Char) : Nat := ds.foldl digitStep 0

/-- Parse a nonempty run of decimal digits at the head of the input;
models the integer case of the Python `json` number scanner. -/
def parseNatDigits (cs : List Char) : Option (Nat × List Char) :=
  let ds := cs.takeWhile Char.isDigit
  if ds.isEmpty then none
  else some (digitsToNat ds, cs.dropWhile Char.isDigit)

/-- Decode one escape character of a JSON string literal (the common
single-character escapes; `\uXXXX` is outside the modelled fragment). -/
def escChar (e : Char) : Option Char :=
  if e = '"' ∨ e = '\\' ∨ e = '/' then some e
  else if e = 'n' then some '\n'
  else if e = 't' then some '\t'
  else if e = 'r' then some '\r'
  else if e = 'b' then some (Char.ofNat 8)
  else if e = 'f' then some (Char.ofNat 12)
  else none

/-- Parse the body of a JSON string literal after the opening quote:
returns the decoded characters and the input after the closing quote. -/
def parseStringAux : List Char → Option (List Char × List Char)
  | [] => none
  | c :: cs =>
    if c = '"' then some ([], cs)
    else if c = '\\' then
      match cs with
      | [] => none
      | e :: cs' =>
        match escChar e, parseStringAux cs' with
        | some d, some (content, rest) => some (d :: content, rest)
        | _, _ => none
    else
      match parseStringAux cs with
      | some (content, rest) => some (c :: content, rest)
      | none => none

/-- Consume an expected literal tail (used for `null`, `true`, `false`). -/
def dropLit : List Char → List Char → Option (List Char)
  | [], cs => some cs
  | p :: ps, c :: cs => if c = p then dropLit ps cs else none
  | _ :: _, [] => none

mutual

/-- Fuel-indexed recursive-descent JSON value parser, modelling the
Python `json` scanner on the integer fragment: dispatches on the first
non-whitespace character and returns the value plus remaining input. -/
def parseJsonVal : Nat → List Char → Option (Json × List Char)
  | 0, _ => none
  | fuel + 1, cs0 =>
    match skipWs cs0 with
    | [] => none
    | c :: rest =>
      if c = '"' then
        match parseStringAux rest with
        | some (content, r) => some (.str (String.mk content), r)
        | none => none
      else if c = '{' then
        let rest1 := skipWs rest
        if rest1.head? = some '}' then some (.obj [], rest1.tail)
        else
          match parseMembers fuel rest1 with
          | some (kvs, r) => some (.obj kvs, r)
          | none => none
      else if c = '[' then
        let rest1 := skipWs rest
        if rest1.head? = some ']' then some (.arr [], rest1.tail)
        else
          match parseElems fuel rest1 with
          | some (vs, r) => some (.arr vs, r)
          | none => none
      else if c = 'n' then
        match dropLit [ 'u', 'l', 'l' ] rest with
        | some r => some (.null, r)
        | none => none
      else if c = 't' then
        match dropLit [ 'r', 'u', 'e' ] rest with
        | some r => some (.bool true, r)
        | none => none
      else if c = 'f' then
        match dropLit [ 'a', 'l', 's', 'e' ] rest with
        | some r => some (.bool false, r)
        | none => none
      else if c = '-' then
        match parseNatDigits rest with
        | some (n, r) => some (.num (-(n : Int)), r)
        | none => none
      else if c.isDigit then
        match parseNatDigits (c :: rest) with
        | some (n, r) => some (.num (n : Int), r)
        | none => none
      else none

/-- Parse `value (',' value)* ']'` inside a nonempty JSON array. -/
def parseElems : Nat → List Char → Option (List Json × List Char)
  | 0, _ => none
  | fuel + 1, cs =>
    match parseJsonVal fuel cs with
    | some (v, rest1) =>
      match skipWs rest1 with
      | sep :: rest2 =>
        if sep = ',' then
          match parseElems fuel rest2 with
          | some (vs, r) => some (v :: vs, r)
          | none => none
        else if sep = ']' then some ([v], rest2)
        else none
      | [] => none
    | none => none

/-- Parse `string ':' value (',' string ':' value)* '}'` inside a
nonempty JSON object. -/
def parseMembers : Nat → List Char → Option (List (String × Json) × List Char)
  | 0, _ => none
  | fuel + 1, cs =>
    match skipWs cs with
    | q :: rest =>
      if q = '"' then
        match parseStringAux rest with
        | some (key, rest1) =>
          match skipWs rest1 with
          | colon :: rest2 =>
            if colon = ':' then
              match parseJsonVal fuel rest2 with
              | some (v, rest3) =>
                match skipWs rest3 with
                | sep :: rest4 =>
                  if sep = ',' then
                    match parseMembers fuel rest4 with
                    | some (kvs, r) => some ((String.mk key, v) :: kvs, r)
                    | none => none
                  else if sep = '}' then some ([(String.mk key, v)], rest4)
                  else none
                | [] => none
              | none => none
            else none
          | [] => none
        | none => none
      else none
    | [] => none

end

/-- Model of Python `json.loads` on the integer fragment: parse one
value and require only whitespace to remain (`Extra data` otherwise);
`none` stands for `json.JSONDecodeError`. -/
def json_loads (s : String) : Option Json :=
  match parseJsonVal (s.data.length + 1) s.data with
  | some (v, rest) => if (skipWs rest).isEmpty then some v else none
  | none => none

/-- Char-list prefix test (`Bool`), used to model `str.startswith`. -/
def charsLead : List Char → List Char → Bool
  | p :: ps, c :: cs => p = c && charsLead ps cs
  | pre, _ => pre.isEmpty

/-- Model of Python `line.startswith(pre)` on text lines. -/
def strStartsWith (s pre : String) : Bool := charsLead pre.data s.data

/-- Model of Python slicing `s[n:]` on text. -/
def strDrop (s : String) (n : Nat) : String := String.mk (s.data.drop n)

/-- Model of `FeatherGateClient._handle_stream`, run over the full
(finite, closed) sequence of lines delivered by `response.iter_lines()`:
for each line, keep it only if it starts with `"data: "`; stop at a
`"[DONE]"` payload (`break`); yield a parsed payload; silently skip a
payload on which `json.loads` raises (`except ... continue`). -/
def handle_stream : List String → List Json
  | [] => []
  | line :: rest =>
    if strStartsWith line "data: " then
      let data := strDrop line 6
      if data = "[DONE]" then []
      else
        match json_loads data with
        | some chunk => chunk :: handle_stream rest
        | none => handle_stream rest
    else handle_stream rest

/-- Character lists of the three JSON keyword literals. -/
def nullLit : List Char := [ 'n', 'u', 'l', 'l' ]

/-- Characters of the `true` keyword. -/
def trueLit : List Char := [ 't', 'r', 'u', 'e' ]

/-- Characters of the `false` keyword. -/
def falseLit : List Char := [ 'f', 'a', 'l', 's', 'e' ]

/-- Escape one character of a JSON string literal, as a serializer
emits it (quote and backslash escaped, everything else verbatim). -/
def escapeChar (c : Char) : List Char :=
  if c = '"' then [ '\\', '"' ]
  else if c = '\\' then [ '\\', '\\' ]
  else [c]

/-- Escape every character of a JSON string body. -/
def escapeL : List Char → List Char
  | [] => []
  | c :: cs => escapeChar c ++ escapeL cs

/-- Decimal serialization of an integer (digits, `-` sign if negative). -/
def serializeIntChars (n : Int) : List Char :=
  if n < 0 then '-' :: natDigits n.natAbs else natDigits n.toNat

mutual

/-- Compact JSON serializer (model of `json.dumps` on the integer
fragment, without the optional whitespace of the default separators). -/
def serializeChars : Json → List Char
  | .null => nullLit
  | .bool b => if b then trueLit else falseLit
  | .num n => serializeIntChars n
  | .str s => '"' :: escapeL s.data ++ [ '"' ]
  | .arr [] => [ '[', ']' ]
  | .arr (x :: xs) => '[' :: (serializeChars x ++ serializeElemsTail xs) ++ [ ']' ]
  | .obj [] => [ '{', '}' ]
  | .obj (kv :: kvs) => '{' :: (serializeMember kv ++ serializeMembersTail kvs) ++ [ '}' ]

/-- Second and later array elements, each preceded by a comma. -/
def serializeElemsTail : List Json → List Char
  | y :: ys => ',' :: serializeChars y ++ serializeElemsTail ys
  | [] => []

/-- One `"key":value` object member. -/
def serializeMember : String × Json → List Char
  | (k, v) => '"' :: escapeL k.data ++ [ '"', ':' ] ++ serializeChars v

/-- Second and later object members, each preceded by a comma. -/
def serializeMembersTail : List (String × Json) → List Char
  | kv :: kvs => ',' :: serializeMember kv ++ serializeMembersTail kvs
  | [] => []

end

/-- String form of the serializer. -/
def serialize (P : Json) : String := String.mk (serializeChars P)

mutual

/-- Parser fuel needed for a value (strictly dominated by the length
of its serialization). -/
def jsize : Json → Nat
  | .arr xs => 1 + esizeL xs
  | .obj kvs => 1 + msizeL kvs
  | _ => 1

/-- Parser fuel needed for a list of array elements. -/
def esizeL : List Json → Nat
  | x :: xs => jsize x + 1 + esizeL xs
  | [] => 0

/-- Parser fuel needed for a list of object members. -/
def msizeL : List (String × Json) → Nat
  | kv :: kvs => jsize kv.2 + 1 + msizeL kvs
  | [] => 0

end

/-- The input after a parsed token must not continue with a digit (else
the number scanner would swallow it); `[]`, `,`, `]`, `}`-headed rests
all qualify. -/
def digitFreeHead (cs : List Char) : Prop :=
  ∀ c, cs.head? = some c → c.isDigit = false


/-! ## HTTP client model -/

/-- An HTTP response: status code and body text. -/
structure HttpResponse where
  status : Nat
  body : String

/-- Model of the `requests.Session` used by the client: a pure
transport mapping each request to a response, so mocks are sessions. -/
structure Session where
  post : String → Json → HttpResponse
  get : String → HttpResponse

/-- Model of `FeatherGateClient` state: the stored base URL and the
transport session (`__init__` stores them). -/
structure FeatherGateClient where
  base_url : String
  session : Session

/-- Model of Python `base_url.rstrip("/")`: remove every trailing
slash. -/
def rstripSlashes (s : String) : String :=
  String.mk ((s.data.reverse.dropWhile (fun c => c = '/')).reverse)

/-- Model of `FeatherGateClient.__init__`. -/
def mkFeatherGateClient (base_url : String) (session : Session) : FeatherGateClient :=
  { base_url := rstripSlashes base_url, session := session }

/-- Errors a call can surface: `transportError` models
`requests.HTTPError` raised by `raise_for_status`, `jsonDecodeError`
models a `response.json()` failure. -/
inductive ClientError where
  | transportError (status : Nat)
  | jsonDecodeError

/-- Model of `response.raise_for_status()`: `requests` raises exactly
for client-error (4xx) and server-error (5xx) status codes. -/
def raise_for_status (r : HttpResponse) : Option ClientError :=
  if 400 ≤ r.status ∧ r.status < 600 then some (.transportError r.status) else none

/-- Model of `response.json()`. -/
def responseJson (r : HttpResponse) : Except ClientError Json :=
  match json_loads r.body with
  | some j => Except.ok j
  | none => Except.error .jsonDecodeError

/-- Split a body into lines at newline characters (model of
`response.iter_lines()` for a fully received body). -/
def splitLinesAux : List Char → List Char → List String
  | [], acc => [String.mk acc.reverse]
  | c :: cs, acc =>
    if c = '\n' then String.mk acc.reverse :: splitLinesAux cs []
    else splitLinesAux cs (c :: acc)

/-- Lines of a response body. -/
def splitLines (body : String) : List String := splitLinesAux body.data []

/-- Python dict update for one key: replace in place if present, else
append (the semantics of `{**d, k: v}` merging). -/
def dictInsert (kvs : List (String × Json)) (k : String) (v : Json) :
    List (String × Json) :=
  if kvs.any (fun kv => kv.1 = k) then
    kvs.map (fun kv => if kv.1 = k then (k, v) else kv)
  else kvs ++ [(k, v)]

/-- Model of `{"model": ..., "messages": ..., "stream": ..., **kwargs}`:
fold the extra fields into the base dict in order. -/
def dictUpdate (base extra : List (String × Json)) : List (String × Json) :=
  extra.foldl (fun acc kv => dictInsert acc kv.1 kv.2) base

/-- The request body `chat` builds and POSTs. -/
def chatBody (messages : List Json) (model : String) (stream : Bool)
    (kwargs : List (String × Json)) : Json :=
  Json.obj (dictUpdate
    [("model", Json.str model), ("messages", Json.arr messages),
      ("stream", Json.bool stream)]
    kwargs)

/-- Result of `chat`: a parsed JSON body, or the decoded stream. -/
inductive ChatResult where
  | response (body : Json)
  | stream (chunks : List Json)

/-- Model of `FeatherGateClient.chat`: POST the body to
`{base_url}/chat/completions`, call `raise_for_status`, then either
hand the body lines to the stream decoder or parse the body as JSON. -/
def chat (c : FeatherGateClient) (messages : List Json) (model : String)
    (stream : Bool) (kwargs : List (String × Json)) : Except ClientError ChatResult :=
  let url := c.base_url ++ "/chat/completions"
  let data := chatBody messages model stream kwargs
  let response := c.session.post url data
  match raise_for_status response with
  | some e => Except.error e
  | none =>
    if stream then Except.ok (.stream (handle_stream (splitLines response.body)))
    else
      match json_loads response.body with
      | some j => Except.ok (.response j)
      | none => Except.error .jsonDecodeError

/-- Model of the `example_list_models` call path:
`session.get(f"{base_url}/models")` followed by `response.json()`;
the source performs no `raise_for_status` here. -/
def list_models (c : FeatherGateClient) : Except ClientError Json :=
  responseJson (c.session.get (c.base_url ++ "/models"))

/-- Model of the `example_health_check` call path:
`session.get(f"{base_url}/health")` followed by `response.json()`;
the source performs no `raise_for_status` here. -/
def health_check (c : FeatherGateClient) : Except ClientError Json :=
  responseJson (c.session.get (c.base_url ++ "/health"))

/-- What `_handle_stream` does to one line that does not terminate the
stream: a chunk if the line has the `data: ` prefix and its payload
parses, nothing otherwise. -/
def decodeLine (l : String) : Option Json :=
  if strStartsWith l "data: " then json_loads (strDrop l 6) else none

/-- Mock session answering every request with status 200 and the
serialized request echoed back, to observe which URL and body a call
produces. -/
def echoSession : Session :=
  { post := fun u b => { status := 200, body := serialize (Json.arr [Json.str u, b]) },
    get := fun u => { status := 200, body := serialize (Json.str u) } }

/-- Mock session answering every request with status 200 and a fixed
serialized value. -/
def constSession (R : Json) : Session :=
  { post := fun _ _ => { status := 200, body := serialize R },
    get := fun _ => { status := 200, body := serialize R } }

/-- Mock session answering every request with HTTP 500 and a valid
JSON body. -/
def err500Session : Session :=
  { post := fun _ _ => { status := 500, body := "\x7b\"data\":[]\x7d" },
    get := fun _ => { status := 500, body := "\x7b\"data\":[]\x7d" } }

/-- A client over the failing transport. -/
def client500 : FeatherGateClient :=
  mkFeatherGateClient "http://localhost:8080/v1" err500Session

/-! ## Round-trip lemmas: `json_loads (serialize P) = some P` -/

/-- Strong induction on naturals, packaged for `induction using`. -/
theorem natStrongInd {motive : Nat → Prop}
    (step : ∀ n, (∀ m, m < n → motive m) → motive n) : ∀ n, motive n :=
  fun n => Nat.strong_induction_on n step

theorem skipWs_cons_of {c : Char} {cs : List Char} (h : wsChar c = false) :
    skipWs (c :: cs) = c :: cs := by
  simp [skipWs, h]

theorem isDigit_decDigit (d : Nat) : (decDigit d).isDigit = true := by
  unfold decDigit
  split <;> decide

theorem digitVal_decDigit (d : Nat) (h : d < 10) : digitVal (decDigit d) = d := by
  interval_cases d <;> decide

theorem natDigitsAux_eq (n : Nat) : ∀ fuel acc, n < fuel →
    natDigitsAux fuel n acc = natDigits n ++ acc := by
  induction n using natStrongInd with
  | step n ih =>
    intro fuel acc hfuel
    match fuel with
    | fuel + 1 =>
      by_cases h10 : n < 10
      · simp [natDigitsAux, natDigits, h10]
      · have hdiv : n / 10 < n := by omega
        have hstep : ∀ acc', natDigitsAux (n + 1) n acc' =
            natDigitsAux n (n / 10) (decDigit (n % 10) :: acc') := by
          intro acc'
          simp [natDigitsAux, h10]
        calc natDigitsAux (fuel + 1) n acc
            = natDigitsAux fuel (n / 10) (decDigit (n % 10) :: acc) := by
              simp [natDigitsAux, h10]
          _ = natDigits (n / 10) ++ (decDigit (n % 10) :: acc) :=
              ih (n / 10) hdiv fuel _ (by omega)
          _ = (natDigits (n / 10) ++ [decDigit (n % 10)]) ++ acc := by simp
          _ = natDigits n ++ acc := by
              rw [show natDigits n = natDigits (n / 10) ++ [decDigit (n % 10)] by
                rw [natDigits, hstep []]
                exact ih (n / 10) hdiv n _ (by omega)]

theorem natDigits_step {n : Nat} (h10 : ¬ n < 10) :
    natDigits n = natDigits (n / 10) ++ [decDigit (n % 10)] := by
  have hdiv : n / 10 < n := by omega
  rw [natDigits]
  rw [show natDigitsAux (n + 1) n [] =
      natDigitsAux n (n / 10) (decDigit (n % 10) :: []) by simp [natDigitsAux, h10]]
  exact natDigitsAux_eq (n / 10) n _ (by omega)

theorem natDigits_lt_ten {n : Nat} (h10 : n < 10) : natDigits n = [decDigit n] := by
  simp [natDigits, natDigitsAux, h10]

theorem natDigits_all_digits (n : Nat) : ∀ c ∈ natDigits n, c.isDigit = true := by
  induction n using natStrongInd with
  | step n ih =>
    intro c hc
    by_cases h10 : n < 10
    · rw [natDigits_lt_ten h10] at hc
      simp at hc
      subst hc
      exact isDigit_decDigit n
    · rw [natDigits_step h10] at hc
      cases List.mem_append.mp hc with
      | inl hmem => exact ih (n / 10) (by omega) c hmem
      | inr hmem =>
        simp at hmem
        subst hmem
        exact isDigit_decDigit (n % 10)

theorem natDigits_ne_nil (n : Nat) : natDigits n ≠ [] := by
  by_cases h10 : n < 10
  · rw [natDigits_lt_ten h10]
    simp
  · rw [natDigits_step h10]
    simp

theorem natDigits_head_digit (n : Nat) :
    ∃ c l, natDigits n = c :: l ∧ c.isDigit = true := by
  cases hd : natDigits n with
  | nil => exact absurd hd (natDigits_ne_nil n)
  | cons c l =>
    refine ⟨c, l, rfl, natDigits_all_digits n c ?_⟩
    rw [hd]
    exact List.mem_cons_self c l

theorem foldl_digitStep_natDigits (n : Nat) : ∀ a,
    (natDigits n).foldl digitStep a = a * 10 ^ (natDigits n).length + n := by
  induction n using natStrongInd with
  | step n ih =>
    intro a
    by_cases h10 : n < 10
    · rw [natDigits_lt_ten h10]
      simp [digitStep, digitVal_decDigit n h10]
    · rw [natDigits_step h10, List.foldl_append, List.length_append]
      simp only [List.foldl_cons, List.foldl_nil, List.length_cons, List.length_nil]
      rw [ih (n / 10) (by omega) a, digitStep, digitVal_decDigit (n % 10) (by omega)]
      rw [pow_succ]
      have h2 : n / 10 * 10 + n % 10 = n := by omega
      calc (a * 10 ^ (natDigits (n / 10)).length + n / 10) * 10 + n % 10
          = a * (10 ^ (natDigits (n / 10)).length * 10) + (n / 10 * 10 + n % 10) := by ring
        _ = a * (10 ^ (natDigits (n / 10)).length * 10) + n := by rw [h2]

theorem digitsToNat_natDigits (n : Nat) : digitsToNat (natDigits n) = n := by
  rw [digitsToNat, foldl_digitStep_natDigits n 0]
  simp

theorem takeWhile_append_all {p : Char → Bool} (l r : List Char)
    (hl : ∀ a ∈ l, p a = true) (hr : ∀ c, r.head? = some c → p c = false) :
    (l ++ r).takeWhile p = l ∧ (l ++ r).dropWhile p = r := by
  induction l with
  | nil =>
    simp only [List.nil_append]
    cases r with
    | nil => simp
    | cons c r' =>
      have hc := hr c rfl
      simp [List.takeWhile_cons, List.dropWhile_cons, hc]
  | cons a l' ih =>
    have ha := hl a (List.mem_cons_self a l')
    have h' := ih (fun x hx => hl x (List.mem_cons_of_mem a hx))
    simp [List.takeWhile_cons, List.dropWhile_cons, ha, h'.1, h'.2]

theorem digitFreeHead_nil : digitFreeHead [] := by
  intro c hc
  simp at hc

theorem digitFreeHead_cons {c : Char} (h : c.isDigit = false) (l : List Char) :
    digitFreeHead (c :: l) := by
  intro d hd
  simp at hd
  subst hd
  exact h

theorem parseNatDigits_natDigits (m : Nat) (rest : List Char)
    (hr : digitFreeHead rest) :
    parseNatDigits (natDigits m ++ rest) = some (m, rest) := by
  have h := takeWhile_append_all (natDigits m) rest (natDigits_all_digits m) hr
  obtain ⟨c, l, hd, -⟩ := natDigits_head_digit m
  simp only [parseNatDigits, h.1, h.2]
  rw [hd]
  simp [digitsToNat_natDigits m ▸ (hd ▸ rfl : digitsToNat (natDigits m) = digitsToNat (natDigits m))]
  rw [← hd, digitsToNat_natDigits]

theorem parseStringAux_escapeL (l : List Char) : ∀ rest,
    parseStringAux (escapeL l ++ '"' :: rest) = some (l, rest) := by
  induction l with
  | nil =>
    intro rest
    have h : escapeL [] ++ '"' :: rest = '"' :: rest := by simp [escapeL]
    rw [h, parseStringAux.eq_def]
    simp
  | cons c cs ih =>
    intro rest
    by_cases h1 : c = '"'
    · subst h1
      have h : escapeL ('"' :: cs) ++ '"' :: rest
          = '\\' :: ('"' :: (escapeL cs ++ '"' :: rest)) := by
        simp +decide [escapeL, escapeChar]
      rw [h, parseStringAux.eq_def]
      have hesc : escChar '"' = some '"' := rfl
      simp +decide [hesc, ih rest]
    · by_cases h2 : c = '\\'
      · subst h2
        have h : escapeL ('\\' :: cs) ++ '"' :: rest
            = '\\' :: ('\\' :: (escapeL cs ++ '"' :: rest)) := by
          simp +decide [escapeL, escapeChar]
        rw [h, parseStringAux.eq_def]
        have hesc : escChar '\\' = some '\\' := rfl
        simp +decide [hesc, ih rest]
      · have h : escapeL (c :: cs) ++ '"' :: rest
            = c :: (escapeL cs ++ '"' :: rest) := by
          simp [escapeL, escapeChar, h1, h2]
        rw [h, parseStringAux.eq_def]
        simp [h1, h2, ih rest]

theorem digit_facts {c : Char} (h : c.isDigit = true) :
    wsChar c = false ∧ c ≠ '"' ∧ c ≠ '{' ∧ c ≠ '[' ∧ c ≠ 'n' ∧ c ≠ 't' ∧
    c ≠ 'f' ∧ c ≠ '-' ∧ c ≠ ']' ∧ c ≠ '}' := by
  have hne : ∀ d : Char, d.isDigit = false → c ≠ d := by
    intro d hd he
    rw [he] at h
    rw [h] at hd
    exact Bool.noConfusion hd
  have hws : wsChar c = false := by
    cases hw : wsChar c with
    | false => rfl
    | true =>
      exfalso
      have hc : ((c = ' ' ∨ c = '\t') ∨ c = '\n') ∨ c = '\r' := by
        simpa [wsChar] using hw
      rcases hc with ((rfl | rfl) | rfl) | rfl <;> exact absurd h (by decide)
  exact ⟨hws, hne '"' (by decide), hne '{' (by decide), hne '[' (by decide),
    hne 'n' (by decide), hne 't' (by decide), hne 'f' (by decide),
    hne '-' (by decide), hne ']' (by decide), hne '}' (by decide)⟩

theorem jsize_pos (P : Json) : 1 ≤ jsize P := by
  cases P <;> simp [jsize]

theorem digit_ne_D {c : Char} (h : Char.isDigit c = true) : ¬(c = 'D') := by
  intro he
  subst he
  exact absurd h (by decide)

/-- Constraints a serialization's first character always meets: not
whitespace and not a closing bracket (nor the sentinel's `D`). -/
abbrev okHead (c : Char) : Prop :=
  wsChar c = false ∧ c ≠ ']' ∧ c ≠ '}' ∧ c ≠ 'D'

theorem serializeChars_head : ∀ P : Json, ∃ c l, serializeChars P = c :: l ∧ okHead c
  | .num n => by
    by_cases hn : n < 0
    · exact ⟨'-', natDigits n.natAbs,
        by simp [serializeChars, serializeIntChars, hn], by decide⟩
    · obtain ⟨c, l, hd, hdig⟩ := natDigits_head_digit n.toNat
      obtain ⟨hws, -, -, -, -, -, -, -, h1, h2⟩ := digit_facts hdig
      exact ⟨c, l, by simp [serializeChars, serializeIntChars, hn, hd],
        hws, h1, h2, digit_ne_D hdig⟩
  | .null => ⟨'n', _, rfl, by decide⟩
  | .bool true => ⟨'t', _, rfl, by decide⟩
  | .bool false => ⟨'f', _, rfl, by decide⟩
  | .str s => ⟨'"', _, rfl, by decide⟩
  | .arr [] => ⟨'[', _, rfl, by decide⟩
  | .arr (x :: xs) => ⟨'[', _, rfl, by decide⟩
  | .obj [] => ⟨'{', _, rfl, by decide⟩
  | .obj (kv :: kvs) => ⟨'{', _, rfl, by decide⟩

/-- Key round-trip invariant, by induction on parser fuel: parsing a
serialized value (element list, member list) consumes exactly it and
returns it, for any continuation that does not start with a digit. -/
theorem parse_serializeChars (fuel : Nat) :
    (∀ P rest, jsize P ≤ fuel → digitFreeHead rest →
      parseJsonVal fuel (serializeChars P ++ rest) = some (P, rest)) ∧
    (∀ x xs rest, jsize x + 1 + esizeL xs ≤ fuel →
      parseElems fuel (serializeChars x ++ (serializeElemsTail xs ++ ']' :: rest))
        = some (x :: xs, rest)) ∧
    (∀ kv kvs rest, jsize kv.2 + 1 + msizeL kvs ≤ fuel →
      parseMembers fuel (serializeMember kv ++ (serializeMembersTail kvs ++ '}' :: rest))
        = some (kv :: kvs, rest)) := by
  induction fuel with
  | zero =>
    exact ⟨fun P rest hsize _ => absurd hsize (by have := jsize_pos P; omega),
      fun x xs rest hsize => absurd hsize (by have := jsize_pos x; omega),
      fun kv kvs rest hsize => absurd hsize (by have := jsize_pos kv.2; omega)⟩
  | succ fuel ih =>
    obtain ⟨ihV, ihE, ihM⟩ := ih
    refine ⟨?_, ?_, ?_⟩
    · intro P rest hsize hrest
      cases P with
      | null => rfl
      | bool b =>
        cases b with
        | true => rfl
        | false => rfl
      | num n =>
        by_cases hn : n < 0
        · have hser : serializeChars (.num n) ++ rest
              = '-' :: (natDigits n.natAbs ++ rest) := by
            simp [serializeChars, serializeIntChars, hn]
          have hnum := parseNatDigits_natDigits n.natAbs rest hrest
          rw [hser, parseJsonVal.eq_def]
          simp +decide [skipWs, wsChar, hnum]
          rw [abs_of_neg hn, neg_neg]
        · obtain ⟨c, l, hd, hdig⟩ := natDigits_head_digit n.toNat
          obtain ⟨hws, hq, hb, hk, hn', ht, hf, hm, -, -⟩ := digit_facts hdig
          have hser : serializeChars (.num n) ++ rest = c :: (l ++ rest) := by
            simp [serializeChars, serializeIntChars, hn, hd]
          have hnum : parseNatDigits (c :: (l ++ rest)) = some (n.toNat, rest) := by
            rw [show c :: (l ++ rest) = natDigits n.toNat ++ rest by rw [hd]; rfl]
            exact parseNatDigits_natDigits n.toNat rest hrest
          have hton : ((n.toNat : Int)) = n := by omega
          rw [hser, parseJsonVal.eq_def]
          simp [skipWs_cons_of hws, hq, hb, hk, hn', ht, hf, hm, hdig, hnum, hton]
      | str s =>
        have hser : serializeChars (.str s) ++ rest
            = '"' :: (escapeL s.data ++ '"' :: rest) := by
          simp [serializeChars]
        have hstr := parseStringAux_escapeL s.data rest
        rw [hser, parseJsonVal.eq_def]
        simp +decide [skipWs, wsChar, hstr]
      | arr xs =>
        cases xs with
        | nil => rfl
        | cons x xs =>
          obtain ⟨c, l, hc, hok⟩ := serializeChars_head x
          obtain ⟨hws, hbr, -, -⟩ := hok
          have hser : serializeChars (.arr (x :: xs)) ++ rest
              = '[' :: (c :: (l ++ (serializeElemsTail xs ++ ']' :: rest))) := by
            simp [serializeChars, hc]
          have hE : parseElems fuel
              (serializeChars x ++ (serializeElemsTail xs ++ ']' :: rest))
              = some (x :: xs, rest) := by
            apply ihE
            simp [jsize, esizeL] at hsize
            omega
          rw [hc] at hE
          simp only [List.cons_append] at hE
          rw [hser, parseJsonVal.eq_def]
          simp +decide [skipWs, hws, hbr, hE]
      | obj kvs =>
        cases kvs with
        | nil => rfl
        | cons kv kvs =>
          obtain ⟨k, v⟩ := kv
          have hM : parseMembers fuel
              (serializeMember (k, v) ++ (serializeMembersTail kvs ++ '}' :: rest))
              = some ((k, v) :: kvs, rest) := by
            apply ihM
            show jsize v + 1 + msizeL kvs ≤ fuel
            simp [jsize, msizeL] at hsize
            omega
          have hser : serializeChars (.obj ((k, v) :: kvs)) ++ rest
              = '{' :: ('"' :: (escapeL k.data
                  ++ ('"' :: ':' :: (serializeChars v
                      ++ (serializeMembersTail kvs ++ '}' :: rest))))) := by
            simp [serializeChars, serializeMember]
          simp [serializeMember, List.append_assoc] at hM
          rw [hser, parseJsonVal.eq_def]
          simp +decide [skipWs, hM, List.append_assoc]
    · intro x xs rest hsize
      have hV : parseJsonVal fuel
          (serializeChars x ++ (serializeElemsTail xs ++ ']' :: rest))
          = some (x, serializeElemsTail xs ++ ']' :: rest) := by
        apply ihV
        · omega
        · cases xs with
          | nil =>
            simp only [serializeElemsTail, List.nil_append]
            exact digitFreeHead_cons (by decide) rest
          | cons y ys =>
            simp only [serializeElemsTail, List.cons_append]
            exact digitFreeHead_cons (by decide) _
      rw [parseElems.eq_def]
      cases xs with
      | nil =>
        simp only [serializeElemsTail, List.nil_append] at hV ⊢
        simp +decide [hV, skipWs, wsChar]
      | cons y ys =>
        have hE : parseElems fuel
            (serializeChars y ++ (serializeElemsTail ys ++ ']' :: rest))
            = some (y :: ys, rest) := by
          apply ihE
          have := jsize_pos x
          simp [esizeL] at hsize
          omega
        simp only [serializeElemsTail, List.cons_append, List.append_assoc] at hV ⊢
        simp +decide [hV, skipWs, wsChar, hE, List.append_assoc]
    · intro kv kvs rest hsize
      obtain ⟨k, v⟩ := kv
      have hV : parseJsonVal fuel
          (serializeChars v ++ (serializeMembersTail kvs ++ '}' :: rest))
          = some (v, serializeMembersTail kvs ++ '}' :: rest) := by
        apply ihV
        · simp [jsize] at hsize
          omega
        · cases kvs with
          | nil =>
            simp only [serializeMembersTail, List.nil_append]
            exact digitFreeHead_cons (by decide) rest
          | cons kv' kvs' =>
            simp only [serializeMembersTail, List.cons_append]
            exact digitFreeHead_cons (by decide) _
      have hkey := parseStringAux_escapeL k.data
        (':' :: (serializeChars v ++ (serializeMembersTail kvs ++ '}' :: rest)))
      rw [parseMembers.eq_def]
      cases kvs with
      | nil =>
        simp only [serializeMembersTail, List.nil_append] at hV hkey ⊢
        simp +decide [serializeMember, skipWs, hkey, hV, List.append_assoc]
      | cons kv' kvs' =>
        obtain ⟨k', v'⟩ := kv'
        have hM : parseMembers fuel
            (serializeMember (k', v') ++ (serializeMembersTail kvs' ++ '}' :: rest))
            = some ((k', v') :: kvs', rest) := by
          apply ihM
          show jsize v' + 1 + msizeL kvs' ≤ fuel
          have := jsize_pos v
          simp [msizeL] at hsize
          omega
        simp [serializeMember, List.append_assoc] at hM
        simp [serializeMembersTail, serializeMember, List.append_assoc] at hV hkey
        simp +decide [serializeMember, serializeMembersTail, skipWs, hkey, hV, hM,
          List.append_assoc]

mutual

/-- The parser fuel needed for a value is at most the length of its
serialization (so input-length-based fuel always suffices). -/
theorem jsize_le : (P : Json) → jsize P ≤ (serializeChars P).length
  | .null => by simp [jsize, serializeChars, nullLit]
  | .bool b => by cases b <;> simp [jsize, serializeChars, trueLit, falseLit]
  | .num n => by
    have h : serializeIntChars n ≠ [] := by
      rw [serializeIntChars]
      split
      · simp
      · exact natDigits_ne_nil _
    have := List.length_pos.mpr h
    simp [jsize, serializeChars]
    omega
  | .str s => by simp [jsize, serializeChars]
  | .arr [] => by simp [jsize, esizeL, serializeChars]
  | .arr (x :: xs) => by
    have h1 := jsize_le x
    have h2 := esizeL_le xs
    simp [jsize, esizeL, serializeChars]
    omega
  | .obj [] => by simp [jsize, msizeL, serializeChars]
  | .obj (kv :: kvs) => by
    obtain ⟨k, v⟩ := kv
    have h1 := jsize_le v
    have h2 := msizeL_le kvs
    simp [jsize, msizeL, serializeChars, serializeMember]
    omega

/-- Fuel bound for the comma-separated tail of an array. -/
theorem esizeL_le : (xs : List Json) → esizeL xs ≤ (serializeElemsTail xs).length
  | [] => by simp [esizeL, serializeElemsTail]
  | y :: ys => by
    have h1 := jsize_le y
    have h2 := esizeL_le ys
    simp [esizeL, serializeElemsTail]
    omega

/-- Fuel bound for the comma-separated tail of an object. -/
theorem msizeL_le : (kvs : List (String × Json)) →
    msizeL kvs ≤ (serializeMembersTail kvs).length
  | [] => by simp [msizeL, serializeMembersTail]
  | kv :: kvs => by
    obtain ⟨k, v⟩ := kv
    have h1 := jsize_le v
    have h2 := msizeL_le kvs
    simp [msizeL, serializeMembersTail, serializeMember]
    omega

end

/-- Round trip: the model of `json.loads` is a left inverse of the
model of `json.dumps` on every JSON value. -/
theorem json_loads_serialize (P : Json) : json_loads (serialize P) = some P := by
  have hV := (parse_serializeChars ((serializeChars P).length + 1)).1 P []
    (by have := jsize_le P; omega) digitFreeHead_nil
  simp only [List.append_nil] at hV
  have hdata : (serialize P).data = serializeChars P := rfl
  simp only [json_loads, hdata, hV]
  rfl

/-- No JSON value serializes to the sentinel text `[DONE]`. -/
theorem serialize_ne_done (P : Json) : serialize P ≠ "[DONE]" := by
  intro h
  have hd : serializeChars P = [ '[', 'D', 'O', 'N', 'E', ']' ] := congrArg String.data h
  cases P with
  | null => exact absurd hd (by decide)
  | bool b => cases b <;> exact absurd hd (by decide)
  | num n =>
    by_cases hn : n < 0
    · rw [show serializeChars (.num n) = '-' :: natDigits n.natAbs
        from by simp [serializeChars, serializeIntChars, hn]] at hd
      simp at hd
    · obtain ⟨c, l, hc, hdig⟩ := natDigits_head_digit n.toNat
      rw [show serializeChars (.num n) = c :: l
        from by simp [serializeChars, serializeIntChars, hn, hc]] at hd
      have : c = '[' := by simp at hd; exact hd.1
      subst this
      exact absurd hdig (by decide)
  | str s =>
    rw [show serializeChars (.str s) = '"' :: (escapeL s.data ++ [ '"' ])
      from by simp [serializeChars]] at hd
    simp at hd
  | arr xs =>
    cases xs with
    | nil => exact absurd hd (by decide)
    | cons x xs =>
      obtain ⟨c, l, hc, hok⟩ := serializeChars_head x
      obtain ⟨-, -, -, hD⟩ := hok
      rw [show serializeChars (.arr (x :: xs))
          = '[' :: (c :: (l ++ (serializeElemsTail xs ++ [ ']' ])))
        from by simp [serializeChars, hc]] at hd
      have : c = 'D' := by simp at hd; exact hd.1
      exact hD this
  | obj kvs =>
    cases kvs with
    | nil => exact absurd hd (by decide)
    | cons kv kvs =>
      rw [show serializeChars (.obj (kv :: kvs))
          = '{' :: (serializeMember kv ++ (serializeMembersTail kvs ++ [ '}' ]))
        from by simp [serializeChars]] at hd
      simp at hd

theorem charsLead_append (l r : List Char) : charsLead l (l ++ r) = true := by
  induction l with
  | nil => rfl
  | cons p ps ih => simp [charsLead, ih]

/-! ## String and base-URL lemmas -/

theorem string_data_inj {a b : String} (h : a.data = b.data) : a = b := by
  cases a
  cases b
  exact congrArg String.mk (by simpa using h)

theorem string_mk_data (s : String) : String.mk s.data = s := rfl

theorem string_data_append (s t : String) : (s ++ t).data = s.data ++ t.data := by
  cases s
  cases t
  rfl

theorem head_dropWhile_false {p : Char → Bool} : ∀ (l : List Char) (c : Char),
    (l.dropWhile p).head? = some c → p c = false := by
  intro l
  induction l with
  | nil =>
    intro c hc
    simp [List.dropWhile] at hc
  | cons a l ih =>
    intro c hc
    by_cases ha : p a
    · rw [List.dropWhile_cons, if_pos ha] at hc
      exact ih c hc
    · rw [List.dropWhile_cons, if_neg ha] at hc
      simp at hc
      subst hc
      simpa using ha

theorem rstrip_no_trailing_slash (s : String) :
    (rstripSlashes s).data.getLast? ≠ some '/' := by
  intro h
  rw [show (rstripSlashes s).data
      = (s.data.reverse.dropWhile (fun c => c = '/')).reverse from rfl] at h
  rw [List.getLast?_reverse] at h
  have := head_dropWhile_false (p := fun c => decide (c = '/')) s.data.reverse '/' h
  simp at this

theorem rstrip_decomp (s : String) :
    ∃ n, s = rstripSlashes s ++ String.mk (List.replicate n '/') := by
  refine ⟨(s.data.reverse.takeWhile (fun c => c = '/')).length, ?_⟩
  apply string_data_inj
  have hsplit := List.takeWhile_append_dropWhile
    (p := fun c => decide (c = '/')) (l := s.data.reverse)
  have hrep : (s.data.reverse.takeWhile (fun c => c = '/')).reverse
      = List.replicate (s.data.reverse.takeWhile (fun c => c = '/')).length '/' := by
    rw [← List.length_reverse]
    apply List.eq_replicate_length.mpr
    intro b hb
    have hb' := List.mem_reverse.mp hb
    have := List.mem_takeWhile_imp hb'
    simpa using this
  show s.data = (s.data.reverse.dropWhile (fun c => c = '/')).reverse
      ++ List.replicate (s.data.reverse.takeWhile (fun c => c = '/')).length '/'
  rw [← hrep, ← List.reverse_append, hsplit, List.reverse_reverse]

theorem startsWith_data_marker (s : String) :
    strStartsWith ("data: " ++ s) "data: " = true := by
  simp only [strStartsWith, string_data_append]
  exact charsLead_append _ _

theorem strDrop_data_marker (s : String) : strDrop ("data: " ++ s) 6 = s := by
  simp only [strDrop, string_data_append]
  rw [show (6 : Nat) = ("data: ".data).length from rfl, List.drop_left]

/-! ## The claims -/

/-- C1: a `data: ` line whose payload is the sentinel `[DONE]`
terminates the chunk sequence immediately: the decoder's output does
not depend on (or read) anything positioned after that line, and the
sentinel line itself yields no chunk — the output is exactly the
decode of the lines before it. -/
theorem done_sentinel_terminates_stream (pre post : List String) :
    handle_stream (pre ++ "data: [DONE]" :: post) = handle_stream pre := by
  induction pre with
  | nil => rfl
  | cons l pre ih =>
    simp only [List.cons_append]
    by_cases h1 : strStartsWith l "data: "
    · by_cases h2 : strDrop l 6 = "[DONE]"
      · simp [handle_stream, h1, h2]
      · cases hj : json_loads (strDrop l 6) with
        | none => simp [handle_stream, h1, h2, hj, ih]
        | some j => simp [handle_stream, h1, h2, hj, ih]
    · simp [handle_stream, h1, ih]

/-- C2: a `data: ` line whose payload is neither the sentinel nor
valid JSON is skipped silently: no chunk, no termination, decoding
continues with the next line (the decoder is a total function, so no
error can be raised). -/
theorem malformed_data_line_skipped (line : String) (rest : List String)
    (h1 : strStartsWith line "data: " = true)
    (h2 : strDrop line 6 ≠ "[DONE]")
    (h3 : json_loads (strDrop line 6) = none) :
    handle_stream (line :: rest) = handle_stream rest := by
  simp [handle_stream, h1, h2, h3]

/-- Witness for C2 at the line `data: bad` followed by a well-formed
line that is still decoded. -/
theorem malformed_data_line_skipped_witness :
    (strStartsWith "data: bad" "data: " = true ∧
      strDrop "data: bad" 6 ≠ "[DONE]" ∧
      json_loads (strDrop "data: bad" 6) = none) ∧
    handle_stream ["data: bad", "data: \x7b\"x\":1\x7d"]
      = handle_stream ["data: \x7b\"x\":1\x7d"] :=
  ⟨⟨by decide, by decide, rfl⟩,
    malformed_data_line_skipped "data: bad" ["data: \x7b\"x\":1\x7d"]
      (by decide) (by decide) rfl⟩

/-- C3: for every JSON value `P`, decoding the single line
`"data: " ++ serialize P` yields exactly the one chunk `P`
(serialization followed by the decoder's parse is the identity). -/
theorem serialized_line_yields_one_chunk (P : Json) :
    handle_stream ["data: " ++ serialize P] = [P] := by
  simp [handle_stream, startsWith_data_marker, strDrop_data_marker,
    serialize_ne_done P, json_loads_serialize P]

/-- C4: every line without the 6-character `data: ` prefix is silently
discarded, so a line sequence with no `data: ` line decodes to the
empty chunk sequence. -/
theorem non_data_lines_discarded (lines : List String)
    (h : ∀ l ∈ lines, strStartsWith l "data: " = false) :
    handle_stream lines = [] := by
  induction lines with
  | nil => rfl
  | cons l rest ih =>
    have h1 := h l (List.mem_cons_self l rest)
    simp [handle_stream, h1, ih (fun y hy => h y (List.mem_cons_of_mem l hy))]

/-- Witness for C4: blank keep-alive line, an `event:` field, an `id:`
field, and a `data:`-without-space line are all discarded. -/
theorem non_data_lines_discarded_witness :
    (∀ l ∈ ["", "event: x", "id: 3", "data:no-space"],
      strStartsWith l "data: " = false) ∧
    handle_stream ["", "event: x", "id: 3", "data:no-space"] = [] :=
  ⟨by decide, non_data_lines_discarded _ (by decide)⟩

/-- C5: when no line carries the `[DONE]` payload, the decoder
processes every line and simply ends: its output is the per-line decode
of the whole input (implicit termination at end of input, no error). -/
theorem no_sentinel_implicit_end (lines : List String)
    (h : ∀ l ∈ lines, ¬(strStartsWith l "data: " = true ∧ strDrop l 6 = "[DONE]")) :
    handle_stream lines = lines.filterMap decodeLine := by
  induction lines with
  | nil => rfl
  | cons l rest ih =>
    have h1 := h l (List.mem_cons_self l rest)
    have ih' := ih (fun x hx => h x (List.mem_cons_of_mem l hx))
    by_cases hs : strStartsWith l "data: "
    · have h2 : strDrop l 6 ≠ "[DONE]" := fun he => h1 ⟨hs, he⟩
      cases hj : json_loads (strDrop l 6) with
      | none => simp [handle_stream, decodeLine, hs, h2, hj, ih']
      | some j => simp [handle_stream, decodeLine, hs, h2, hj, ih']
    · simp [handle_stream, decodeLine, hs, ih']

/-- Witness for C5 at the spec's scenario C: lines
`["data: bad", "data: {\"x\":1}"]` with no sentinel decode to exactly
the one chunk `{"x": 1}`. -/
theorem no_sentinel_implicit_end_witness :
    (∀ l ∈ ["data: bad", "data: \x7b\"x\":1\x7d"],
      ¬(strStartsWith l "data: " = true ∧ strDrop l 6 = "[DONE]")) ∧
    handle_stream ["data: bad", "data: \x7b\"x\":1\x7d"]
      = [Json.obj [("x", Json.num 1)]] := by
  constructor
  · decide
  · rw [no_sentinel_implicit_end _ (by decide)]
    rfl

/-- C6 counterexample: against a transport answering HTTP 500 with a
JSON body, the `listModels` call path returns the parsed body as a
success — no `TransportError` (or any error) propagates, because the
source never calls `raise_for_status` on the GET calls. -/
theorem list_models_500_no_transport_error :
    list_models client500 = Except.ok (Json.obj [("data", Json.arr [])]) ∧
    list_models client500 ≠ Except.error (ClientError.transportError 500) := by
  refine ⟨rfl, fun h => ?_⟩
  rw [show list_models client500 = Except.ok (Json.obj [("data", Json.arr [])])
    from rfl] at h
  exact Except.noConfusion h

/-- C6 amended: `chat` propagates a `TransportError` (with no partial
result) exactly when the POST response status is 4xx/5xx — the range
`raise_for_status` raises for; `listModels` and `healthCheck` perform
no status check at all and return the parsed body whatever the status
is. -/
theorem transport_error_amended :
    (∀ (c : FeatherGateClient) (messages : List Json) (model : String)
        (stream : Bool) (kwargs : List (String × Json)),
      400 ≤ (c.session.post (c.base_url ++ "/chat/completions")
        (chatBody messages model stream kwargs)).status →
      (c.session.post (c.base_url ++ "/chat/completions")
        (chatBody messages model stream kwargs)).status < 600 →
      chat c messages model stream kwargs
        = Except.error (.transportError
            ((c.session.post (c.base_url ++ "/chat/completions")
              (chatBody messages model stream kwargs)).status))) ∧
    (∀ (c : FeatherGateClient) (j : Json),
      json_loads (c.session.get (c.base_url ++ "/models")).body = some j →
      list_models c = Except.ok j) ∧
    (∀ (c : FeatherGateClient) (j : Json),
      json_loads (c.session.get (c.base_url ++ "/health")).body = some j →
      health_check c = Except.ok j) := by
  refine ⟨fun c messages model stream kwargs h1 h2 => ?_,
    fun c j h => ?_, fun c j h => ?_⟩
  · simp [chat, raise_for_status, h1, h2]
  · simp [list_models, responseJson, h]
  · simp [health_check, responseJson, h]

/-- Witness for the amended C6: over the HTTP-500 transport, `chat`
fails with `TransportError` while `listModels` and `healthCheck`
succeed with the parsed body. -/
theorem transport_error_amended_witness :
    chat client500 [] "gpt-4" false [] = Except.error (.transportError 500) ∧
    list_models client500 = Except.ok (Json.obj [("data", Json.arr [])]) ∧
    health_check client500 = Except.ok (Json.obj [("data", Json.arr [])]) := by
  exact ⟨transport_error_amended.1 client500 [] "gpt-4" false [] (by decide) (by decide),
    transport_error_amended.2.1 client500 (Json.obj [("data", Json.arr [])]) rfl,
    transport_error_amended.2.2 client500 (Json.obj [("data", Json.arr [])]) rfl⟩

/-- C7: a non-streaming `chat` call POSTs exactly the body
`{model, messages, stream} ∪ kwargs` (dict merge) to
`{base}/chat/completions` — shown by the echoing transport, which
succeeds only in reflecting what was actually sent — and returns the
parsed JSON response body unchanged for any mocked response value. -/
theorem chat_posts_body_and_returns_json (base : String) (messages : List Json)
    (model : String) (kwargs : List (String × Json)) (R : Json) :
    chat (mkFeatherGateClient base (constSession R)) messages model false kwargs
      = Except.ok (.response R) ∧
    chat (mkFeatherGateClient base echoSession) messages model false kwargs
      = Except.ok (.response (Json.arr
          [Json.str (rstripSlashes base ++ "/chat/completions"),
            Json.obj (dictUpdate
              [("model", Json.str model), ("messages", Json.arr messages),
                ("stream", Json.bool false)] kwargs)])) := by
  constructor
  · simp [chat, mkFeatherGateClient, constSession, raise_for_status,
      json_loads_serialize]
  · simp [chat, mkFeatherGateClient, echoSession, raise_for_status,
      json_loads_serialize, chatBody]

/-- C8: sentinel recognition is exact string equality on the payload
after the exact 6-character prefix `data: ` — `data:[DONE]` (missing
space) is discarded as a non-data line, and payloads `[DONE] ` or
` [DONE]` (stray whitespace) do not terminate: they fail to parse and
are skipped, decoding continuing with the rest. -/
theorem sentinel_requires_exact_payload (rest : List String) :
    handle_stream ("data:[DONE]" :: rest) = handle_stream rest ∧
    handle_stream ("data: [DONE] " :: rest) = handle_stream rest ∧
    handle_stream ("data:  [DONE]" :: rest) = handle_stream rest := by
  refine And.intro ?_ (And.intro ?_ ?_)
  · have h1 : strStartsWith "data:[DONE]" "data: " = false := by decide
    simp [handle_stream, h1]
  · have h1 : strStartsWith "data: [DONE] " "data: " = true := by decide
    have h2 : strDrop "data: [DONE] " 6 = "[DONE] " := rfl
    have h3 : json_loads "[DONE] " = none := rfl
    have h4 : ("[DONE] " : String) ≠ "[DONE]" := by decide
    simp [handle_stream, h1, h2, h3, h4]
  · have h1 : strStartsWith "data:  [DONE]" "data: " = true := by decide
    have h2 : strDrop "data:  [DONE]" 6 = " [DONE]" := rfl
    have h3 : json_loads " [DONE]" = none := rfl
    have h4 : (" [DONE]" : String) ≠ "[DONE]" := by decide
    simp [handle_stream, h1, h2, h3, h4]

/-- C9: the line that is exactly `data: ` has the empty payload, which
is not the sentinel and not valid JSON, so it is skipped and decoding
continues with the rest. -/
theorem empty_payload_skipped (rest : List String) :
    handle_stream ("data: " :: rest) = handle_stream rest := by
  have h1 : strStartsWith "data: " "data: " = true := by decide
  have h2 : strDrop "data: " 6 = "" := rfl
  have h3 : json_loads "" = none := rfl
  have h4 : ("" : String) ≠ "[DONE]" := by decide
  simp [handle_stream, h1, h2, h3, h4]

/-- C10: construction strips every trailing slash from the base URL
so the stored base URL never ends in a slash, and the given URL is the
stored one followed by some run of slashes; chat, listModels and
healthCheck all form their endpoint URLs as the stored base plus a
single slash-prefixed path. -/
theorem base_url_trailing_slashes_stripped (base : String) :
    (rstripSlashes base).data.getLast? ≠ some '/' ∧
    (∃ n, base = rstripSlashes base ++ String.mk (List.replicate n '/')) ∧
    (∀ session, (mkFeatherGateClient base session).base_url = rstripSlashes base) ∧
    list_models (mkFeatherGateClient base echoSession)
      = Except.ok (Json.str (rstripSlashes base ++ "/models")) ∧
    health_check (mkFeatherGateClient base echoSession)
      = Except.ok (Json.str (rstripSlashes base ++ "/health")) ∧
    chat (mkFeatherGateClient base echoSession) [] "gpt-4" false []
      = Except.ok (.response (Json.arr
          [Json.str (rstripSlashes base ++ "/chat/completions"),
            chatBody [] "gpt-4" false []])) := by
  refine ⟨rstrip_no_trailing_slash base, rstrip_decomp base, fun _ => rfl, ?_, ?_, ?_⟩
  · simp [list_models, mkFeatherGateClient, echoSession, responseJson,
      json_loads_serialize]
  · simp [health_check, mkFeatherGateClient, echoSession, responseJson,
      json_loads_serialize]
  · simp [chat, mkFeatherGateClient, echoSession, raise_for_status,
      json_loads_serialize]

/-!
Behavioral checks: the executable model agrees with `json.loads` /
`_handle_stream` on representative concrete inputs.
-/
example : serializeChars .null = [ 'n', 'u', 'l', 'l' ] := rfl
example (fuel : Nat) (rest : List Char) :
    parseJsonVal (fuel + 1) ('n' :: 'u' :: 'l' :: 'l' :: rest) = some (.null, rest) := rfl
example (fuel : Nat) (rest : List Char) :
    parseJsonVal (fuel + 1) ('[' :: ']' :: rest) = some (.arr [], rest) := rfl
example : json_loads "1" = some (.num 1) := rfl
example : json_loads "\x7b\"x\":1\x7d" = some (.obj [("x", .num 1)]) := rfl
example : json_loads "[DONE]" = none := rfl
example : json_loads "bad" = none := rfl
example : json_loads "" = none := rfl
example : json_loads "[1, 2]" = some (.arr [.num 1, .num 2]) := rfl
example : json_loads "\"a\"" = some (.str "a") := rfl
example : json_loads "-12" = some (.num (-12)) := rfl
example : json_loads " \x7b \"a\" : null , \"b\" : [true,false] \x7d " =
    some (.obj [("a", .null), ("b", .arr [.bool true, .bool false])]) := rfl
example : handle_stream ["data: \x7b\"x\":1\x7d", "data: [DONE]", "data: 2"] =
    [.obj [("x", .num 1)]] := rfl
example : handle_stream ["", "event: x", "data: bad", "data: 3"] = [.num 3] := rfl

end FeatherGate
